import Mathlib

/-!
Verification of the per-user task index cache and the per-user request
scheduler of the `rtm-api` client library.

The definitions below are shallow embeddings of the JavaScript source:

* `getIndex`, `getTaskId`, `getTaskSeriesId`, `getListId`, `getUser`,
  `save`/`clear`/`_readCache` come from `src/utils/taskIds.js`
  (the revision storing the full `{task_id, taskseries_id, list_id}`
  triple per index).  A JavaScript object with positive-integer-like
  keys is modelled as an association list sorted by key (JS enumerates
  integer-like own keys in ascending numeric order); property read and
  write are `tget`/`tset`, and the `USERS` object is an association
  list with keyed read/write `cget`/`cset`.
* the request dispatcher `get` of `src/request/get.js` (the
  single-timestamp revision using `user._nextRequest` and
  `config.api.timeout`) is modelled by `schedDelay` / `dispatch` /
  `runSched` / `runAll`; the `setTimeout(fn, timeout)` call is modelled
  by its deadline `now + timeout`, and each scheduling produces exactly
  one dispatch.
* `_getTaskInfo` of `src/user/tasks.js` is modelled by `getTaskInfo`;
  the remote fetch `user.tasks.get` is passed in as data (its result
  list, or its error) and its side effect of constructing one `RTMTask`
  per returned task — each constructor calling `taskIds.getIndex` —
  is the `reindex` fold.  `RTMError.referenceError` comes from
  `src/response/error.js`.
-/

namespace RtmApi

/-- The identifier triple stored per index in the task id cache
(`taskIds.js` stores `{task_id, taskseries_id, list_id}`, each a
JS number obtained via `parseFloat` of an integer id). -/
structure IndexEntry where
  list_id : Int
  taskseries_id : Int
  task_id : Int
deriving DecidableEq, Repr

/-- A user's index table: JS object mapping index (integer-like key) to
entry, modelled as an association list in ascending-key enumeration
order. -/
abbrev UserTable := List (Nat × IndexEntry)

/-- The `CACHE.USERS` object: user id to user table. -/
abbrev Cache := List (Int × UserTable)

/-- The field-wise comparison performed by the matching loop of
`getIndex`: `task_id`, then `taskseries_id`, then `list_id`. -/
def entryMatches (stored e : IndexEntry) : Bool :=
  stored.task_id == e.task_id && stored.taskseries_id == e.taskseries_id &&
    stored.list_id == e.list_id

/-- The matching loop of `getIndex`: scan the table in enumeration
order and return the first index whose stored entry matches. -/
def findMatch : UserTable → IndexEntry → Option Nat
  | [], _ => none
  | (i, v) :: rest, e => if entryMatches v e then some i else findMatch rest e

/-- `Object.keys(user)` (as numbers; JS yields their decimal strings). -/
def tkeys (t : UserTable) : List Nat := t.map Prod.fst

/-- JS property read `user[i]`. -/
def tget : UserTable → Nat → Option IndexEntry
  | [], _ => none
  | (k, v) :: rest, i => if k = i then some v else tget rest i

/-- JS property write `user[i] = e` (integer-like keys enumerate in
ascending order, and writing an existing key replaces its value). -/
def tset : UserTable → Nat → IndexEntry → UserTable
  | [], i, e => [(i, e)]
  | (k, v) :: rest, i, e =>
    if i < k then (i, e) :: (k, v) :: rest
    else if i = k then (i, e) :: rest
    else (k, v) :: tset rest i e

/-- Read `CACHE.USERS[u]`. -/
def cget : Cache → Int → Option UserTable
  | [], _ => none
  | (k, v) :: rest, u => if k = u then some v else cget rest u

/-- Write `CACHE.USERS[u] = t`. -/
def cset : Cache → Int → UserTable → Cache
  | [], u, t => [(u, t)]
  | (k, v) :: rest, u, t => if k = u then (k, t) :: rest else (k, v) :: cset rest u t

/-- `getUser(userId)` of `taskIds.js`: the user's table, or an empty
object if the user has no table. -/
def getUser (c : Cache) (u : Int) : UserTable := (cget c u).getD []

/-- The minting loop of `getIndex`:
`let index = 1; while (indices.indexOf(index.toString()) > -1) index++`.
The loop is bounded by `|keys| + 1` probes (a run of `|keys| + 1`
distinct candidates cannot all be keys). -/
def mintAux (ks : List Nat) : Nat → Nat → Nat
  | i, 0 => i
  | i, fuel + 1 => if i ∈ ks then mintAux ks (i + 1) fuel else i

/-- The index minted for a brand-new entry. -/
def mint (ks : List Nat) : Nat := mintAux ks 1 (ks.length + 1)

/-- `getIndex(userId, task)` of `taskIds.js`: return the index of the
first stored entry field-wise equal to the given triple, else mint the
smallest unused positive index, store the triple there, and return it.
Returns the index together with the updated `CACHE`. -/
def getIndex (c : Cache) (u : Int) (e : IndexEntry) : Nat × Cache :=
  let t := getUser c u
  match findMatch t e with
  | some i => (i, c)
  | none =>
    let i := mint (tkeys t)
    (i, cset c u (tset t i e))

/-- `getTaskId(userId, taskIndex)`: `task === undefined ? undefined :
task['task_id']`. -/
def getTaskId (c : Cache) (u : Int) (i : Nat) : Option Int :=
  (tget (getUser c u) i).map IndexEntry.task_id

/-- `getTaskSeriesId(userId, taskIndex)`. -/
def getTaskSeriesId (c : Cache) (u : Int) (i : Nat) : Option Int :=
  (tget (getUser c u) i).map IndexEntry.taskseries_id

/-- `getListId(userId, taskIndex)`. -/
def getListId (c : Cache) (u : Int) (i : Nat) : Option Int :=
  (tget (getUser c u) i).map IndexEntry.list_id

/-- The process state of the cache module: the in-memory `CACHE` and
the backing file (`none` when the file does not exist).  The file
holds the serialized store; `JSON.stringify`/re-`require` of this
shape of plain integer-keyed objects and numbers is faithful, so the
file is modelled by the cache value it encodes. -/
structure Store where
  cache : Cache
  file : Option Cache
deriving DecidableEq, Repr

/-- Process start before `_readCache()`: `CACHE = { USERS: {} }`,
no file assumed. -/
def initStore : Store := ⟨[], none⟩

/-- `_readCache()` at process start (in-memory state empty): a missing
file loads as the empty store. -/
def loadCache (f : Option Cache) : Cache := f.getD []

/-- `save()`: write the in-memory cache to the file. -/
def saveOp (s : Store) : Store := ⟨s.cache, some s.cache⟩

/-- `clear(userId)`: `_readCache(); CACHE.USERS[userId] = {}; save()`.
Note the reload from the file before clearing. -/
def clearOp (u : Int) (s : Store) : Store :=
  let c1 := s.file.getD s.cache
  let c2 := cset c1 u []
  ⟨c2, some c2⟩

/-- `getIndex` acting on the process state (the file is untouched). -/
def getIndexOp (u : Int) (e : IndexEntry) (s : Store) : Nat × Store :=
  let r := getIndex s.cache u e
  (r.1, ⟨r.2, s.file⟩)

/-- States reachable from process start through the public operations
of the cache module. -/
inductive Reachable : Store → Prop
  | init : Reachable initStore
  | getIdx {s} (u : Int) (e : IndexEntry) : Reachable s → Reachable (getIndexOp u e s).2
  | saveStep {s} : Reachable s → Reachable (saveOp s)
  | clearStep {s} (u : Int) : Reachable s → Reachable (clearOp u s)

/-- The uniqueness invariant on one user table: indices are unique and
the same entry value is stored under at most one index. -/
def tableOK (t : UserTable) : Prop :=
  (tkeys t).Nodup ∧ ∀ p ∈ t, ∀ q ∈ t, p.2 = q.2 → p.1 = q.1

/-- The invariant over the whole `USERS` map. -/
def cacheOK (c : Cache) : Prop := ∀ u, tableOK (getUser c u)

/-- The invariant over in-memory cache and backing file together. -/
def storeOK (s : Store) : Prop :=
  cacheOK s.cache ∧ ∀ f, s.file = some f → cacheOK f

/-- Entry `{list_id: 1, taskseries_id: 10, task_id: 100}` of the
spec's concrete scenario. -/
def entryA : IndexEntry := ⟨1, 10, 100⟩

/-- Entry `{list_id: 1, taskseries_id: 11, task_id: 101}` of the
spec's concrete scenario. -/
def entryB : IndexEntry := ⟨1, 11, 101⟩

/-- `RTMError` of `src/response/error.js` (code and message). -/
structure RTMError where
  code : Int
  msg : String
deriving DecidableEq, Repr

/-- `RTMError.referenceError()`: code `-3`. -/
def referenceError : RTMError :=
  ⟨-3, "Reference Error: Could not find item by reference index number or name"⟩

/-- The side effect of the remote fetch `user.tasks.get`: each returned
task constructs an `RTMTask`, whose constructor calls
`taskIds.getIndex(userId, this)` — every returned task is re-indexed. -/
def reindex (c : Cache) (u : Int) : List IndexEntry → Cache
  | [] => c
  | e :: es => reindex (getIndex c u e).2 u es

/-- `_getTaskInfo(index, callback)` of `src/user/tasks.js`, with the
remote fetch result passed in as data: look the index up in the cache;
if all three ids are present return them; otherwise fetch (re-indexing
every returned task), then search the fetched tasks for one whose
`task_id` strict-equals the cached `taskId` (`undefined` when the
lookup failed, which a number never strict-equals), and return
`referenceError` when the search fails.  Returns the callback result
together with the cache as left by the fetch. -/
def getTaskInfo (c : Cache) (u : Int) (i : Nat)
    (fetched : Except RTMError (List IndexEntry)) :
    Except RTMError (Int × Int × Int) × Cache :=
  match getListId c u i, getTaskSeriesId c u i, getTaskId c u i with
  | some l, some ts, some t => (Except.ok (l, ts, t), c)
  | l?, ts?, t? =>
    match fetched with
    | Except.error err => (Except.error err, c)
    | Except.ok tasks =>
      let c' := reindex c u tasks
      match l?, ts?, t? with
      | _, _, some t0 =>
        match tasks.find? (fun e => e.task_id == t0) with
        | some e => (Except.ok (e.list_id, e.taskseries_id, e.task_id), c')
        | none => (Except.error referenceError, c')
      | _, _, none => (Except.error referenceError, c')

/-- One `getIndex` call per entry of a fetched batch, collecting the
assigned indices (the per-`RTMTask` indexing during a full fetch). -/
def assignList (c : Cache) (u : Int) : List IndexEntry → List Nat × Cache
  | [] => ([], c)
  | e :: es =>
    let r := getIndex c u e
    let rest := assignList r.2 u es
    (r.1 :: rest.1, rest.2)

/-- The delay computation of the request dispatcher `get`:
`timeout = 0; if (next !== undefined) timeout = now < next ? next - now : 0`. -/
def schedDelay (next : Option Int) (now : Int) : Int :=
  match next with
  | none => 0
  | some n => if now < n then n - now else 0

/-- Per-user scheduling state: `user._nextRequest` for each user id
(`none` when never set). -/
abbrev SchedMap := Int → Option Int

/-- One call of the dispatcher `get` at time `now`, with minimum
interval `T` (`config.api.timeout`).  With no user the request is
dispatched immediately and no scheduling state is read or written;
with a user the delay is computed from `user._nextRequest` and the
state is updated to `now + timeout + T` at scheduling time.  Returns
the dispatch deadline (`setTimeout` fires the single wrapped request
at `now + timeout`) and the new state. -/
def dispatch (T : Int) (s : SchedMap) (user : Option Int) (now : Int) :
    Int × SchedMap :=
  match user with
  | none => (now, s)
  | some u =>
    let d := schedDelay (s u) now
    (now + d, fun v => if v = u then some (now + d + T) else s v)

/-- Successive dispatcher calls for one user: from state `st`, schedule
one request at each time in the list; collect the dispatch times. -/
def runSched (T : Int) : Option Int → List Int → List Int
  | _, [] => []
  | st, now :: ts =>
    let d := schedDelay st now
    (now + d) :: runSched T (some (now + d + T)) ts

/-- An interleaved trace of dispatcher calls: each event is a user id
and the time the call is made; collect each event's user and dispatch
time. -/
def runAll (T : Int) (s : SchedMap) : List (Int × Int) → List (Int × Int)
  | [] => []
  | (u, now) :: evts =>
    let r := dispatch T s (some u) now
    (u, r.1) :: runAll T r.2 evts

example : (getIndex [] 42 entryA).1 = 1 := by decide
example : (getIndex (getIndex [] 42 entryA).2 42 entryB).1 = 2 := by decide
example :
    (getIndex (getIndex (getIndex [] 42 entryA).2 42 entryB).2 42 entryA).1 = 1 := by
  decide

/-! ### Association-list lemmas -/

theorem entryMatches_iff {a b : IndexEntry} : entryMatches a b = true ↔ a = b := by
  cases a
  cases b
  simp [entryMatches]
  tauto

theorem findMatch_none_iff {t : UserTable} {e : IndexEntry} :
    findMatch t e = none ↔ ∀ p ∈ t, p.2 ≠ e := by
  induction t with
  | nil => simp [findMatch]
  | cons p rest ih =>
    obtain ⟨k, v⟩ := p
    simp only [findMatch]
    by_cases h : entryMatches v e = true
    · rw [if_pos h]
      constructor
      · intro hh
        simp at hh
      · intro hall
        exact absurd (entryMatches_iff.mp h) (hall (k, v) (List.mem_cons_self _ _))
    · have hv : v ≠ e := fun hh => h (entryMatches_iff.mpr hh)
      rw [if_neg h, ih]
      simp [hv]

theorem findMatch_mem_keys {t : UserTable} {e : IndexEntry} {i : Nat}
    (h : findMatch t e = some i) : i ∈ tkeys t := by
  induction t with
  | nil => simp [findMatch] at h
  | cons p rest ih =>
    obtain ⟨k, v⟩ := p
    simp only [findMatch] at h
    by_cases hm : entryMatches v e = true
    · rw [if_pos hm] at h
      simp only [Option.some.injEq] at h
      simp [tkeys, h]
    · rw [if_neg hm] at h
      have := ih h
      simp only [tkeys, List.map_cons, List.mem_cons]
      simp only [tkeys] at this
      exact Or.inr this

theorem findMatch_found {t : UserTable} {e : IndexEntry} {i : Nat}
    (hnd : (tkeys t).Nodup) (h : findMatch t e = some i) : tget t i = some e := by
  induction t with
  | nil => simp [findMatch] at h
  | cons p rest ih =>
    obtain ⟨k, v⟩ := p
    simp only [findMatch] at h
    simp only [tkeys, List.map_cons, List.nodup_cons] at hnd
    by_cases hm : entryMatches v e = true
    · rw [if_pos hm] at h
      simp only [Option.some.injEq] at h
      simp [tget, h, entryMatches_iff.mp hm]
    · rw [if_neg hm] at h
      have hik : ¬ k = i := by
        intro hk
        have := findMatch_mem_keys h
        simp only [tkeys] at this
        exact hnd.1 (hk ▸ this)
      simp only [tget]
      rw [if_neg hik]
      exact ih hnd.2 h

theorem findMatch_tset_self {t : UserTable} {e : IndexEntry} (i : Nat)
    (h : ∀ p ∈ t, p.2 ≠ e) : findMatch (tset t i e) e = some i := by
  have hee : entryMatches e e = true := entryMatches_iff.mpr rfl
  induction t with
  | nil => simp [tset, findMatch, hee]
  | cons p rest ih =>
    obtain ⟨k, v⟩ := p
    have hv : ¬ entryMatches v e = true := fun hm =>
      h (k, v) (List.mem_cons_self _ _) (entryMatches_iff.mp hm)
    have hrest : ∀ p ∈ rest, p.2 ≠ e := fun q hq => h q (List.mem_cons_of_mem _ hq)
    simp only [tset]
    rcases lt_trichotomy i k with hlt | heq | hgt
    · rw [if_pos hlt]
      simp [findMatch, hee]
    · rw [if_neg (by omega), if_pos heq]
      simp [findMatch, hee]
    · rw [if_neg (by omega), if_neg (by omega)]
      simp only [findMatch]
      rw [if_neg hv]
      exact ih hrest

theorem tget_tset_self (t : UserTable) (i : Nat) (e : IndexEntry) :
    tget (tset t i e) i = some e := by
  induction t with
  | nil => simp [tset, tget]
  | cons p rest ih =>
    obtain ⟨k, v⟩ := p
    simp only [tset]
    rcases lt_trichotomy i k with hlt | heq | hgt
    · rw [if_pos hlt]
      simp [tget]
    · rw [if_neg (by omega), if_pos heq]
      simp [tget]
    · rw [if_neg (by omega), if_neg (by omega)]
      simp only [tget]
      rw [if_neg (by omega)]
      exact ih

theorem tget_tset_other {i j : Nat} (t : UserTable) (e : IndexEntry) (hij : i ≠ j) :
    tget (tset t i e) j = tget t j := by
  induction t with
  | nil =>
    simp only [tset, tget]
    rw [if_neg hij]
  | cons p rest ih =>
    obtain ⟨k, v⟩ := p
    simp only [tset]
    rcases lt_trichotomy i k with hlt | heq | hgt
    · rw [if_pos hlt]
      simp only [tget]
      rw [if_neg hij]
    · rw [if_neg (by omega), if_pos heq]
      simp only [tget]
      rw [if_neg hij, if_neg (by omega)]
    · rw [if_neg (by omega), if_neg (by omega)]
      simp only [tget]
      by_cases hkj : k = j
      · rw [if_pos hkj, if_pos hkj]
      · rw [if_neg hkj, if_neg hkj]
        exact ih

theorem tget_mem_keys {t : UserTable} {i : Nat} {e : IndexEntry}
    (h : tget t i = some e) : i ∈ tkeys t := by
  induction t with
  | nil => simp [tget] at h
  | cons p rest ih =>
    obtain ⟨k, v⟩ := p
    simp only [tget] at h
    by_cases hk : k = i
    · simp [tkeys, hk]
    · rw [if_neg hk] at h
      have := ih h
      simp only [tkeys, List.map_cons, List.mem_cons]
      simp only [tkeys] at this
      exact Or.inr this

theorem mem_tset_sub {t : UserTable} {i : Nat} {e : IndexEntry} {x : Nat × IndexEntry}
    (h : x ∈ tset t i e) : x = (i, e) ∨ x ∈ t := by
  induction t with
  | nil => simpa [tset] using h
  | cons p rest ih =>
    obtain ⟨k, v⟩ := p
    simp only [tset] at h
    rcases lt_trichotomy i k with hlt | heq | hgt
    · rw [if_pos hlt] at h
      simp only [List.mem_cons] at h ⊢
      tauto
    · rw [if_neg (by omega), if_pos heq] at h
      simp only [List.mem_cons] at h ⊢
      tauto
    · rw [if_neg (by omega), if_neg (by omega)] at h
      simp only [List.mem_cons] at h ⊢
      rcases h with h | h
      · tauto
      · rcases ih h with h' | h' <;> tauto

theorem tkeys_tset_sub {t : UserTable} {i : Nat} {e : IndexEntry} :
    tkeys (tset t i e) ⊆ i :: tkeys t := by
  intro x hx
  simp only [tkeys, List.mem_map] at hx
  obtain ⟨p, hp, hpx⟩ := hx
  simp only [List.mem_cons, tkeys, List.mem_map]
  rcases mem_tset_sub hp with h | h
  · left
    rw [← hpx, h]
  · right
    exact ⟨p, h, hpx⟩

theorem tkeys_tset_nodup {t : UserTable} {i : Nat} {e : IndexEntry}
    (hnd : (tkeys t).Nodup) (hi : i ∉ tkeys t) : (tkeys (tset t i e)).Nodup := by
  induction t with
  | nil => simp [tset, tkeys]
  | cons p rest ih =>
    obtain ⟨k, v⟩ := p
    simp only [tkeys, List.map_cons, List.nodup_cons] at hnd
    simp only [tkeys, List.map_cons, List.mem_cons] at hi
    push_neg at hi
    simp only [tset]
    rcases lt_trichotomy i k with hlt | heq | hgt
    · rw [if_pos hlt]
      simp only [tkeys, List.map_cons, List.nodup_cons, List.mem_cons]
      refine ⟨?_, hnd.1, hnd.2⟩
      push_neg
      refine ⟨hi.1, ?_⟩
      simpa [tkeys] using hi.2
    · omega
    · rw [if_neg (by omega), if_neg (by omega)]
      simp only [tkeys, List.map_cons, List.nodup_cons]
      constructor
      · intro hk
        have := tkeys_tset_sub hk
        simp only [List.mem_cons] at this
        rcases this with h | h
        · omega
        · exact hnd.1 (by simpa [tkeys] using h)
      · have := ih hnd.2 (by simpa [tkeys] using hi.2)
        simpa [tkeys] using this

theorem cget_cset_self (c : Cache) (u : Int) (t : UserTable) :
    cget (cset c u t) u = some t := by
  induction c with
  | nil => simp [cset, cget]
  | cons p rest ih =>
    obtain ⟨k, v⟩ := p
    by_cases hk : k = u
    · simp [cset, cget, hk]
    · simp [cset, cget, hk]
      exact ih

theorem cget_cset_other {u v : Int} (c : Cache) (t : UserTable) (huv : u ≠ v) :
    cget (cset c u t) v = cget c v := by
  induction c with
  | nil =>
    simp only [cset, cget]
    rw [if_neg huv]
  | cons p rest ih =>
    obtain ⟨k, w⟩ := p
    simp only [cset]
    by_cases hk : k = u
    · rw [if_pos hk]
      simp only [cget]
      have hkv : ¬ k = v := by rw [hk]; exact huv
      rw [if_neg hkv, if_neg hkv]
    · rw [if_neg hk]
      simp only [cget]
      by_cases hkv : k = v
      · rw [if_pos hkv, if_pos hkv]
      · rw [if_neg hkv, if_neg hkv]
        exact ih

theorem getUser_cset_self (c : Cache) (u : Int) (t : UserTable) :
    getUser (cset c u t) u = t := by
  simp [getUser, cget_cset_self]

theorem getUser_cset_other {u v : Int} (c : Cache) (t : UserTable) (huv : u ≠ v) :
    getUser (cset c u t) v = getUser c v := by
  simp [getUser, cget_cset_other c t huv]

/-! ### Minting lemmas -/

theorem mintAux_spec (ks : List Nat) :
    ∀ fuel i, (∃ j, i ≤ j ∧ j < i + fuel ∧ j ∉ ks) →
      mintAux ks i fuel ∉ ks ∧ i ≤ mintAux ks i fuel ∧
        ∀ m, i ≤ m → m < mintAux ks i fuel → m ∈ ks := by
  intro fuel
  induction fuel with
  | zero =>
    intro i hex
    obtain ⟨j, hj1, hj2, _⟩ := hex
    omega
  | succ f ih =>
    intro i hex
    by_cases hi : i ∈ ks
    · have hex' : ∃ j, i + 1 ≤ j ∧ j < i + 1 + f ∧ j ∉ ks := by
        obtain ⟨j, hj1, hj2, hj3⟩ := hex
        refine ⟨j, ?_, by omega, hj3⟩
        rcases Nat.eq_or_lt_of_le hj1 with h | h
        · exact absurd hi (h ▸ hj3)
        · omega
      obtain ⟨h1, h2, h3⟩ := ih (i + 1) hex'
      simp only [mintAux, if_pos hi]
      refine ⟨h1, by omega, ?_⟩
      intro m hm1 hm2
      rcases Nat.eq_or_lt_of_le hm1 with h | h
      · exact h ▸ hi
      · exact h3 m h hm2
    · simp only [mintAux, if_neg hi]
      exact ⟨hi, le_refl i, fun m hm1 hm2 => by omega⟩

theorem exists_free_slot (ks : List Nat) :
    ∃ j, 1 ≤ j ∧ j < 1 + (ks.length + 1) ∧ j ∉ ks := by
  by_contra hcon
  push_neg at hcon
  have hsub : Finset.Icc 1 (ks.length + 1) ⊆ ks.toFinset := by
    intro j hj
    rw [Finset.mem_Icc] at hj
    rw [List.mem_toFinset]
    exact hcon j hj.1 (by omega)
  have hcard := Finset.card_le_card hsub
  rw [Nat.card_Icc] at hcard
  have := ks.toFinset_card_le
  omega

theorem mint_spec (ks : List Nat) :
    mint ks ∉ ks ∧ 1 ≤ mint ks ∧ ∀ m, 1 ≤ m → m < mint ks → m ∈ ks :=
  mintAux_spec ks (ks.length + 1) 1 (exists_free_slot ks)

/-! ### `getIndex` lemmas -/

theorem getUser_getIndex_other {c : Cache} {u : Int} {e : IndexEntry} {v : Int}
    (hvu : v ≠ u) : getUser (getIndex c u e).2 v = getUser c v := by
  cases hfm : findMatch (getUser c u) e with
  | some i => simp only [getIndex, hfm]
  | none =>
    simp only [getIndex, hfm]
    exact getUser_cset_other _ _ (fun h => hvu h.symm)

theorem getUser_getIndex_self {c : Cache} {u : Int} {e : IndexEntry}
    (hfm : findMatch (getUser c u) e = none) :
    getUser (getIndex c u e).2 u = tset (getUser c u) (mint (tkeys (getUser c u))) e := by
  simp only [getIndex, hfm]
  exact getUser_cset_self _ _ _

theorem nodup_keys_getIndex {c : Cache} {u : Int} {e : IndexEntry} (v : Int)
    (h : (tkeys (getUser c v)).Nodup) :
    (tkeys (getUser (getIndex c u e).2 v)).Nodup := by
  by_cases hvu : v = u
  · subst hvu
    cases hfm : findMatch (getUser c v) e with
    | some i =>
      simp only [getIndex, hfm]
      exact h
    | none =>
      rw [getUser_getIndex_self hfm]
      exact tkeys_tset_nodup h (mint_spec (tkeys (getUser c v))).1
  · rw [getUser_getIndex_other hvu]
    exact h

theorem tget_getIndex_pres {c : Cache} {u' : Int} {e' : IndexEntry} {u : Int}
    {i : Nat} {e : IndexEntry} (h : tget (getUser c u) i = some e) :
    tget (getUser (getIndex c u' e').2 u) i = some e := by
  by_cases hu : u = u'
  · subst hu
    cases hfm : findMatch (getUser c u) e' with
    | some j =>
      simp only [getIndex, hfm]
      exact h
    | none =>
      rw [getUser_getIndex_self hfm]
      have hmem : i ∈ tkeys (getUser c u) := tget_mem_keys h
      have hne : mint (tkeys (getUser c u)) ≠ i := by
        intro hh
        exact (mint_spec (tkeys (getUser c u))).1 (hh ▸ hmem)
      rw [tget_tset_other _ _ hne]
      exact h
  · rw [getUser_getIndex_other hu]
    exact h

theorem getIndex_lookup_self {c : Cache} {u : Int} {e : IndexEntry}
    (hnd : (tkeys (getUser c u)).Nodup) :
    tget (getUser (getIndex c u e).2 u) (getIndex c u e).1 = some e := by
  cases hfm : findMatch (getUser c u) e with
  | some i =>
    have h1 : (getIndex c u e).1 = i := by
      simp only [getIndex, hfm]
    have h2 : (getIndex c u e).2 = c := by
      simp only [getIndex, hfm]
    rw [h1, h2]
    exact findMatch_found hnd hfm
  | none =>
    have h1 : (getIndex c u e).1 = mint (tkeys (getUser c u)) := by
      simp only [getIndex, hfm]
    rw [h1, getUser_getIndex_self hfm]
    exact tget_tset_self _ _ _

/-! ### Scheduler lemmas -/

theorem runSched_length (T : Int) :
    ∀ (ts : List Int) (st : Option Int), (runSched T st ts).length = ts.length := by
  intro ts
  induction ts with
  | nil => intro st; rfl
  | cons t rest ih =>
    intro st
    simp only [runSched, List.length_cons, ih]

theorem sched_spacing_chain (T : Int) :
    ∀ (ts : List Int) (st : Option Int),
      List.Chain' (fun a b => a + T ≤ b) (runSched T st ts) := by
  intro ts
  induction ts with
  | nil => intro st; simp [runSched]
  | cons t rest ih =>
    intro st
    cases rest with
    | nil => simp [runSched]
    | cons t2 rest2 =>
      have h1 : runSched T st (t :: t2 :: rest2)
          = (t + schedDelay st t)
            :: runSched T (some (t + schedDelay st t + T)) (t2 :: rest2) := rfl
      have h2 : runSched T (some (t + schedDelay st t + T)) (t2 :: rest2)
          = (t2 + schedDelay (some (t + schedDelay st t + T)) t2)
            :: runSched T
              (some (t2 + schedDelay (some (t + schedDelay st t + T)) t2 + T)) rest2 := rfl
      rw [h1, h2, List.chain'_cons]
      refine ⟨?_, by rw [← h2]; exact ih (some (t + schedDelay st t + T))⟩
      generalize schedDelay st t = d1
      simp only [schedDelay]
      by_cases h : t2 < t + d1 + T
      · rw [if_pos h]
        omega
      · rw [if_neg h]
        omega

/-- C2: Scheduler spacing, completeness and order — for any minimum
interval `T > 0` (`config.api.timeout`), any prior per-user scheduling
state, and any sequence of scheduling times for a single user, all
requests are dispatched (one dispatch per scheduling, none dropped),
each consecutive pair of dispatch times is at least `T` apart, and the
dispatch times are strictly increasing, so the requests fire in the
original scheduling order (FIFO). -/
theorem sched_spacing_fifo (T : Int) (hT : 0 < T) (st : Option Int) (ts : List Int) :
    (runSched T st ts).length = ts.length ∧
    List.Chain' (fun a b => a + T ≤ b) (runSched T st ts) ∧
    List.Chain' (fun a b => a < b) (runSched T st ts) := by
  refine ⟨runSched_length T ts st, sched_spacing_chain T ts st, ?_⟩
  exact List.Chain'.imp (fun a b h => by omega) (sched_spacing_chain T ts st)

/-- Witness for `sched_spacing_fifo` at `T = 1000`, fresh state, three
back-to-back schedulings at time `0` (dispatches at `0, 1000, 2000`). -/
theorem sched_spacing_fifo_witness :
    (0 : Int) < 1000 ∧
    ((runSched 1000 none [0, 0, 0]).length = [0, 0, 0].length ∧
      List.Chain' (fun a b => a + 1000 ≤ b) (runSched 1000 none [0, 0, 0]) ∧
      List.Chain' (fun a b => a < b) (runSched 1000 none [0, 0, 0])) :=
  ⟨by decide, sched_spacing_fifo 1000 (by decide) none [0, 0, 0]⟩

/-- C5: Scheduler delay computation — the delay is `0` when
`_nextRequest` is unset, `max 0 (next - now)` when it is set (zero for
a `next` in the past), the single wrapped request of a scheduling is
dispatched at `now + delay`, and the user's `_nextRequest` is updated
to `now + delay + T` at scheduling time. -/
theorem sched_delay_eq (T now n : Int) (s : SchedMap) (u : Int) :
    schedDelay none now = 0 ∧
    schedDelay (some n) now = max 0 (n - now) ∧
    (dispatch T s (some u) now).1 = now + schedDelay (s u) now ∧
    (dispatch T s (some u) now).2 u = some (now + schedDelay (s u) now + T) := by
  refine ⟨rfl, ?_, rfl, by simp [dispatch]⟩
  simp only [schedDelay]
  by_cases h : now < n
  · rw [if_pos h]
    omega
  · rw [if_neg h]
    omega

/-- C10: a dispatcher call with no user is dispatched with zero delay
and neither reads nor writes the per-user scheduling state, and the
first scheduled request of a user whose `_nextRequest` was never set is
dispatched with zero delay, with the state set to `now + T` so that
throttling begins with the second request. -/
theorem dispatch_no_user_first (T now : Int) (s : SchedMap) (u : Int)
    (h : s u = none) :
    dispatch T s none now = (now, s) ∧
    schedDelay (s u) now = 0 ∧
    (dispatch T s (some u) now).1 = now ∧
    (dispatch T s (some u) now).2 u = some (now + T) := by
  refine ⟨rfl, ?_, ?_, ?_⟩ <;> simp [dispatch, schedDelay, h]

/-- Witness for `dispatch_no_user_first`: fresh scheduling state, user
`3`, time `5`, interval `1000`. -/
theorem dispatch_no_user_first_witness :
    ((fun _ => (none : Option Int)) (3 : Int) = none) ∧
    (dispatch 1000 (fun _ => none) none 5 = (5, fun _ => none) ∧
      schedDelay ((fun _ => (none : Option Int)) (3 : Int)) 5 = 0 ∧
      (dispatch 1000 (fun _ => none) (some 3) 5).1 = 5 ∧
      (dispatch 1000 (fun _ => none) (some 3) 5).2 3 = some (5 + 1000)) :=
  ⟨rfl, dispatch_no_user_first 1000 5 (fun _ => none) 3 rfl⟩

theorem runAll_filter (T : Int) (A : Int) :
    ∀ (evts : List (Int × Int)) (s : SchedMap),
      (runAll T s evts).filter (fun p => p.1 == A)
        = (runSched T (s A) ((evts.filter (fun p => p.1 == A)).map Prod.snd)).map
            (fun f => (A, f)) := by
  intro evts
  induction evts with
  | nil => intro s; rfl
  | cons ev rest ih =>
    intro s
    obtain ⟨u, now⟩ := ev
    by_cases hu : u = A
    · subst hu
      simp only [runAll, dispatch, List.filter_cons, List.map_cons, beq_self_eq_true,
        if_true, List.map_cons]
      simp only [runSched]
      rw [ih]
      simp
    · have hb : (u == A) = false := by simp [hu]
      simp only [runAll, dispatch, List.filter_cons, hb, Bool.false_eq_true, if_false]
      rw [ih]
      rw [if_neg (fun hh : A = u => hu hh.symm)]

/-- C9: Scheduler independence across users — the dispatch times of
user `A`'s requests depend only on `A`'s own scheduling state and on
the subsequence of events scheduled for `A`: two runs that agree on
`A`'s initial state and on `A`'s events (but differ arbitrarily in
other users' events, e.g. whether some user `B` has pending requests)
produce identical dispatch timing for `A`. -/
theorem sched_independence (T : Int) (A : Int) (s1 s2 : SchedMap)
    (evts1 evts2 : List (Int × Int))
    (hs : s1 A = s2 A)
    (hevts : evts1.filter (fun p => p.1 == A) = evts2.filter (fun p => p.1 == A)) :
    (runAll T s1 evts1).filter (fun p => p.1 == A)
      = (runAll T s2 evts2).filter (fun p => p.1 == A) := by
  rw [runAll_filter, runAll_filter, hs, hevts]

/-- Witness for `sched_independence`: user `1`'s two requests time
identically whether or not user `2` has a request in between. -/
theorem sched_independence_witness :
    ((fun _ => (none : Option Int)) (1 : Int) = (fun _ => (none : Option Int)) (1 : Int) ∧
      ([((1 : Int), (0 : Int)), (2, 5), (1, 10)].filter (fun p => p.1 == 1)
        = [((1 : Int), (0 : Int)), (1, 10)].filter (fun p => p.1 == 1))) ∧
    (runAll 1000 (fun _ => none) [(1, 0), (2, 5), (1, 10)]).filter (fun p => p.1 == 1)
      = (runAll 1000 (fun _ => none) [(1, 0), (1, 10)]).filter (fun p => p.1 == 1) :=
  ⟨⟨rfl, by decide⟩, sched_independence 1000 1 _ _ _ _ rfl (by decide)⟩

/-! ### Index-store claims -/

/-- C1: Stability of index assignment — for every cache state, user and
entry, calling `getIndex` twice in a row (no intervening `clear`)
returns the same index both times; matching is field-wise equality on
`list_id`, `taskseries_id` and `task_id`. -/
theorem getIndex_stability (c : Cache) (u : Int) (e : IndexEntry) :
    (getIndex (getIndex c u e).2 u e).1 = (getIndex c u e).1 := by
  cases hfm : findMatch (getUser c u) e with
  | some i =>
    have h2 : (getIndex c u e).2 = c := by simp only [getIndex, hfm]
    rw [h2]
  | none =>
    have h1 : (getIndex c u e).1 = mint (tkeys (getUser c u)) := by
      simp only [getIndex, hfm]
    have hfm2 : findMatch (getUser (getIndex c u e).2 u) e
        = some (mint (tkeys (getUser c u))) := by
      rw [getUser_getIndex_self hfm]
      exact findMatch_tset_self _ (findMatch_none_iff.mp hfm)
    have key : ∀ c' : Cache, findMatch (getUser c' u) e = some (mint (tkeys (getUser c u))) →
        (getIndex c' u e).1 = mint (tkeys (getUser c u)) := by
      intro c' hfm'
      simp only [getIndex, hfm']
    rw [h1]
    exact key _ hfm2

/-- C3: Minimality of minted indices — when no stored entry of the
user's table is field-wise equal to `e`, `getIndex` returns a positive
index not in use, every smaller positive integer is in use, and the
entry is stored at the returned index. -/
theorem getIndex_minimality (c : Cache) (u : Int) (e : IndexEntry)
    (h : ∀ p ∈ getUser c u, p.2 ≠ e) :
    1 ≤ (getIndex c u e).1 ∧
    (getIndex c u e).1 ∉ tkeys (getUser c u) ∧
    (∀ m, 1 ≤ m → m < (getIndex c u e).1 → m ∈ tkeys (getUser c u)) ∧
    tget (getUser (getIndex c u e).2 u) (getIndex c u e).1 = some e := by
  have hfm : findMatch (getUser c u) e = none := findMatch_none_iff.mpr h
  have h1 : (getIndex c u e).1 = mint (tkeys (getUser c u)) := by
    simp only [getIndex, hfm]
  obtain ⟨hm1, hm2, hm3⟩ := mint_spec (tkeys (getUser c u))
  refine ⟨?_, ?_, ?_, ?_⟩
  · rw [h1]
    exact hm2
  · rw [h1]
    exact hm1
  · intro m hm hlt
    rw [h1] at hlt
    exact hm3 m hm hlt
  · rw [h1, getUser_getIndex_self hfm]
    exact tget_tset_self _ _ _

/-- Witness for `getIndex_minimality`: empty table of user `42`,
assigning `entryA` mints index `1`. -/
theorem getIndex_minimality_witness :
    (∀ p ∈ getUser [] 42, p.2 ≠ entryA) ∧
    (1 ≤ (getIndex [] 42 entryA).1 ∧
      (getIndex [] 42 entryA).1 ∉ tkeys (getUser [] 42) ∧
      (∀ m, 1 ≤ m → m < (getIndex [] 42 entryA).1 → m ∈ tkeys (getUser [] 42)) ∧
      tget (getUser (getIndex [] 42 entryA).2 42) (getIndex [] 42 entryA).1
        = some entryA) :=
  ⟨by decide, getIndex_minimality [] 42 entryA (by decide)⟩

theorem tableOK_nil : tableOK [] := by
  constructor
  · simp [tkeys]
  · intro p hp
    simp at hp

theorem cacheOK_getIndex {c : Cache} (h : cacheOK c) (u : Int) (e : IndexEntry) :
    cacheOK (getIndex c u e).2 := by
  intro v
  by_cases hvu : v = u
  · subst hvu
    cases hfm : findMatch (getUser c v) e with
    | some i =>
      have h2 : (getIndex c v e).2 = c := by simp only [getIndex, hfm]
      rw [h2]
      exact h v
    | none =>
      rw [getUser_getIndex_self hfm]
      obtain ⟨hnd, hinj⟩ := h v
      have hfresh := (mint_spec (tkeys (getUser c v))).1
      have hne : ∀ p ∈ getUser c v, p.2 ≠ e := findMatch_none_iff.mp hfm
      constructor
      · exact tkeys_tset_nodup hnd hfresh
      · intro p hp q hq hpq
        rcases mem_tset_sub hp with hp' | hp' <;> rcases mem_tset_sub hq with hq' | hq'
        · rw [hp', hq']
        · exfalso
          apply hne q hq'
          rw [← hpq, hp']
        · exfalso
          apply hne p hp'
          rw [hpq, hq']
        · exact hinj p hp' q hq' hpq
  · rw [getUser_getIndex_other hvu]
    exact h v

theorem cacheOK_cset_empty {c : Cache} (h : cacheOK c) (u : Int) :
    cacheOK (cset c u []) := by
  intro v
  by_cases hvu : v = u
  · subst hvu
    rw [getUser_cset_self]
    exact tableOK_nil
  · rw [getUser_cset_other _ _ (fun hh => hvu hh.symm)]
    exact h v

theorem storeOK_reachable {s : Store} (h : Reachable s) : storeOK s := by
  induction h with
  | init =>
    refine ⟨fun u => tableOK_nil, ?_⟩
    intro f hf
    simp [initStore] at hf
  | getIdx u e _ ih =>
    exact ⟨cacheOK_getIndex ih.1 u e, fun f hf => ih.2 f hf⟩
  | saveStep _ ih =>
    refine ⟨ih.1, ?_⟩
    intro f hf
    simp only [saveOp, Option.some.injEq] at hf
    exact hf ▸ ih.1
  | clearStep u _ ih =>
    rename_i s' _
    have hc1 : cacheOK (s'.file.getD s'.cache) := by
      cases hsf : s'.file with
      | none => simpa using ih.1
      | some f => simpa using ih.2 f hsf
    have hc2 := cacheOK_cset_empty hc1 u
    refine ⟨hc2, ?_⟩
    intro f hf
    simp only [clearOp, Option.some.injEq] at hf
    exact hf ▸ hc2

/-- C4: Uniqueness invariant — in every state reachable through the
public operations (`getIndex`, `save`, `clear`; lookups do not change
state), each user's table has unique indices (no two entries under the
same index) and the same entry value (field-wise equal identifiers) is
stored under at most one index. -/
theorem reachable_table_unique (s : Store) (h : Reachable s) (u : Int) :
    tableOK (getUser s.cache u) :=
  (storeOK_reachable h).1 u

/-- Witness for `reachable_table_unique`: the state after one
assignment for user `1` is reachable, and user `1`'s table satisfies
the invariant there. -/
theorem reachable_table_unique_witness :
    Reachable (getIndexOp 1 entryA initStore).2 ∧
    tableOK (getUser (getIndexOp 1 entryA initStore).2.cache 1) :=
  ⟨Reachable.getIdx 1 entryA Reachable.init,
    reachable_table_unique _ (Reachable.getIdx 1 entryA Reachable.init) 1⟩

/-- C7 counterexample: `clear(U1)` does not always leave user `U2`'s
indices untouched.  From the empty persisted store, user `2` is
assigned index `1` in memory (not yet persisted); `clear(1)` first
re-reads the backing file, dropping user `2`'s unsaved index: the
lookup that returned `entryA` before `clear(1)` returns nothing after
it. -/
theorem clear_isolation_cex :
    (1 : Int) ≠ 2 ∧
    tget (getUser ((getIndexOp 2 entryA (saveOp initStore)).2).cache 2) 1 = some entryA ∧
    tget (getUser (clearOp 1 (getIndexOp 2 entryA (saveOp initStore)).2).cache 2) 1 = none ∧
    Reachable (getIndexOp 2 entryA (saveOp initStore)).2 := by
  refine ⟨by decide, by decide, by decide, ?_⟩
  exact Reachable.getIdx 2 entryA (Reachable.saveStep Reachable.init)

/-- C7 amended: `clear(U1)` empties `U1`'s table (the next assignment
for `U1` mints index `1` again) and persists immediately; and
*provided the in-memory store agrees with the backing file* (the file
is absent or equal to the cache — `clear` re-reads the file before
clearing), every lookup for any other user `U2` returns the same entry
after `clear(U1)` as before it. -/
theorem clear_isolation_amended (s : Store) (u1 u2 : Int) (e : IndexEntry)
    (hne : u1 ≠ u2) (hsync : s.file = none ∨ s.file = some s.cache) :
    getUser (clearOp u1 s).cache u1 = [] ∧
    (getIndex (clearOp u1 s).cache u1 e).1 = 1 ∧
    (clearOp u1 s).file = some (clearOp u1 s).cache ∧
    ∀ i, tget (getUser (clearOp u1 s).cache u2) i = tget (getUser s.cache u2) i := by
  have hc1 : s.file.getD s.cache = s.cache := by
    rcases hsync with h | h <;> simp [h]
  have hcache : (clearOp u1 s).cache = cset s.cache u1 [] := by
    simp only [clearOp, hc1]
  have hu1 : getUser (clearOp u1 s).cache u1 = [] := by
    rw [hcache, getUser_cset_self]
  refine ⟨hu1, ?_, rfl, ?_⟩
  · simp only [getIndex]
    rw [hu1]
    rfl
  · intro i
    rw [hcache, getUser_cset_other _ _ hne]

/-- Witness for `clear_isolation_amended`: after assigning for user `2`
with no backing file, `clear(1)` keeps user `2`'s lookups intact and
user `1` mints index `1`. -/
theorem clear_isolation_amended_witness :
    ((1 : Int) ≠ 2) ∧
    ((getIndexOp 2 entryA initStore).2.file = none ∨
      (getIndexOp 2 entryA initStore).2.file
        = some (getIndexOp 2 entryA initStore).2.cache) ∧
    (getUser (clearOp 1 (getIndexOp 2 entryA initStore).2).cache 1 = [] ∧
      (getIndex (clearOp 1 (getIndexOp 2 entryA initStore).2).cache 1 entryB).1 = 1 ∧
      (clearOp 1 (getIndexOp 2 entryA initStore).2).file
        = some (clearOp 1 (getIndexOp 2 entryA initStore).2).cache ∧
      ∀ i, tget (getUser (clearOp 1 (getIndexOp 2 entryA initStore).2).cache 2) i
        = tget (getUser (getIndexOp 2 entryA initStore).2.cache 2) i) :=
  ⟨by decide, Or.inl rfl,
    clear_isolation_amended _ 1 2 entryB (by decide) (Or.inl rfl)⟩

theorem tget_assignList_pres {u : Int} {i : Nat} {e : IndexEntry} :
    ∀ (es : List IndexEntry) (c : Cache), tget (getUser c u) i = some e →
      tget (getUser (assignList c u es).2 u) i = some e := by
  intro es
  induction es with
  | nil => intro c h; exact h
  | cons e' es ih =>
    intro c h
    exact ih _ (tget_getIndex_pres h)

theorem assignList_lookup {u : Int} :
    ∀ (es : List IndexEntry) (c : Cache), (tkeys (getUser c u)).Nodup →
      ∀ p ∈ (assignList c u es).1.zip es,
        tget (getUser (assignList c u es).2 u) p.1 = some p.2 := by
  intro es
  induction es with
  | nil =>
    intro c hnd p hp
    simp [assignList] at hp
  | cons e es ih =>
    intro c hnd p hp
    have hzip : (assignList c u (e :: es)).1.zip (e :: es)
        = ((getIndex c u e).1, e)
          :: (assignList (getIndex c u e).2 u es).1.zip es := rfl
    rw [hzip] at hp
    have hfinal : (assignList c u (e :: es)).2 = (assignList (getIndex c u e).2 u es).2 := rfl
    rw [hfinal]
    rcases List.mem_cons.mp hp with hp' | hp'
    · subst hp'
      exact tget_assignList_pres es _ (getIndex_lookup_self hnd)
    · exact ih _ (nodup_keys_getIndex u hnd) p hp'

/-- C8: Persistence round-trip — a missing backing file loads as the
empty store; and after assigning any batch of entries for user `u`
(starting from a table with unique indices) and calling `save`,
reloading the store from the backing file (as on process restart)
yields a store in which every assigned index looks up to the entry it
was assigned for. -/
theorem persist_roundtrip (c : Cache) (u : Int) (es : List IndexEntry) (f : Option Cache)
    (hnd : (tkeys (getUser c u)).Nodup) :
    loadCache none = [] ∧
    ∀ p ∈ (assignList c u es).1.zip es,
      tget (getUser (loadCache (saveOp ⟨(assignList c u es).2, f⟩).file) u) p.1
        = some p.2 := by
  refine ⟨rfl, ?_⟩
  intro p hp
  have hload : loadCache (saveOp ⟨(assignList c u es).2, f⟩).file
      = (assignList c u es).2 := rfl
  rw [hload]
  exact assignList_lookup es c hnd p hp

/-- Witness for `persist_roundtrip`: assign `entryA`, `entryB` for user
`42` from the empty store, save, reload; indices `1` and `2` look up to
the two entries. -/
theorem persist_roundtrip_witness :
    (tkeys (getUser [] 42)).Nodup ∧
    (loadCache none = [] ∧
      ∀ p ∈ (assignList [] 42 [entryA, entryB]).1.zip [entryA, entryB],
        tget
          (getUser (loadCache (saveOp ⟨(assignList [] 42 [entryA, entryB]).2, none⟩).file)
            42) p.1 = some p.2) :=
  ⟨by decide, persist_roundtrip [] 42 [entryA, entryB] none (by decide)⟩

/-- C6 (code bug): with an empty index table for user `1`, looking up
index `1` fails, the code re-fetches (the fetched task re-indexes to
index `1`, so the claimed retried lookup would succeed), yet
`_getTaskInfo` still returns the `referenceError` (`RTMError` code
`-3`): its retry searches the fetched tasks for `task_id === taskId`
with `taskId === undefined`, which no task ever satisfies.  No input
crashes: the result is always a value or a typed error. -/
theorem getTaskInfo_refresh_bug :
    (getTaskInfo [] 1 1 (Except.ok [entryA])).1 = Except.error referenceError ∧
    referenceError.code = -3 ∧
    tget (getUser (getTaskInfo [] 1 1 (Except.ok [entryA])).2 1) 1 = some entryA ∧
    getListId (getTaskInfo [] 1 1 (Except.ok [entryA])).2 1 1 = some entryA.list_id ∧
    getTaskSeriesId (getTaskInfo [] 1 1 (Except.ok [entryA])).2 1 1
      = some entryA.taskseries_id ∧
    getTaskId (getTaskInfo [] 1 1 (Except.ok [entryA])).2 1 1 = some entryA.task_id :=
  ⟨rfl, rfl, rfl, rfl, rfl, rfl⟩

end RtmApi
